import Mathlib

/-!
Verification of the in-memory search engine core against its design
specification.  The Lean definitions below are shallow embeddings of the
C++ sources: `TrieNode.insert` mirrors `src/src/trie.cpp`, `Mymap.insert`
mirrors `src/src/Map.cpp`, `read_sizes` mirrors
`src/src/Document_store.cpp`, and the bounded top-k `Selector` is modelled
from the specification because the `Maxheap` method bodies are not among
the given sources (only the class declaration `src/header/Maxheap.hpp` is).

Machine C strings are embedded as `List Int` of their characters (the
terminating NUL is implicit: reading `token[0]` of an empty token yields
`0`, which `List.headD` reproduces).  The node field `value` is an `Int`
with the unset sentinel `-1`, as in the constructor `TrieNode()`.
Null pointers are embedded by an explicit `null` constructor.  Undefined
behavior (the out-of-bounds read `token+1` on an empty token) is embedded
as `none` of an `Option` result.
-/

/-- Embedding of the `TrieNode` pointer structure of `src/src/trie.cpp`:
`value` is the character value (sentinel `-1` when unset), `sibling` and
`child` are the two `TrieNode*` members, and `list` is the `Scorelist*`
posting-list member that the class declaration owns; the constructor
leaves it unset (the line `list = nullptr` is commented out) and no code
under `src` ever assigns it, which we embed as `none`. -/
inductive TrieNode where
  | null : TrieNode
  | node (value : Int) (sibling : TrieNode) (child : TrieNode)
      (list : Option (List Int)) : TrieNode
deriving DecidableEq

/-- A freshly constructed node, `TrieNode()`: value `-1`, null sibling and
child, posting list never initialised. -/
def freshNode : TrieNode := TrieNode.node (-1) TrieNode.null TrieNode.null none

/-- Inlined embedding of `(new TrieNode())->insert(token, id)`: the fresh
node has the sentinel value `-1`, so it accepts `token[0]` immediately; on
an empty token the code would read `token+1` out of bounds (`none`). The
`id` argument is threaded exactly as in the source, which never uses it. -/
def insertFresh : List Int → Int → Option TrieNode
  | [], _ => none
  | [c], _ => some (TrieNode.node c TrieNode.null TrieNode.null none)
  | c :: c2 :: rest, id =>
      (insertFresh (c2 :: rest) id).map fun ch =>
        TrieNode.node c TrieNode.null ch none

/-- Embedding of `TrieNode::insert(char* token, int id)` from
`src/src/trie.cpp` lines 25-46.  The source tests
`value == -1 || value == token[0]`, assigns `value = token[0]`, returns at
`strlen(token) == 1` (leaving the posting list uninitialised, since the
`initialise list` step is only a comment), recurses into `child` on
`token+1` otherwise (creating the child if null), and otherwise recurses
into `sibling` on the same token (creating the sibling if null).  With an
empty token, `strlen(token) == 1` fails and the recursion on `token+1`
reads past the terminating NUL: undefined behavior, embedded as `none`.
The method is never invoked on a null pointer in the source; that case is
also `none`. -/
def TrieNode.insert : TrieNode → List Int → Int → Option TrieNode
  | .null, _, _ => none
  | .node value sib child l, token, id =>
    if value = -1 ∨ value = token.headD 0 then
      match token with
      | [] => none
      | [c] => some (.node c sib child l)
      | c :: c2 :: rest =>
        match child with
        | .node v2 s2 c2' l2 =>
            ((TrieNode.node v2 s2 c2' l2).insert (c2 :: rest) id).map
              fun ch' => .node c sib ch' l
        | .null =>
            (insertFresh (c2 :: rest) id).map fun ch' => .node c sib ch' l
    else
      match sib with
      | .node v2 s2 c2' l2 =>
          ((TrieNode.node v2 s2 c2' l2).insert token id).map
            fun s' => .node value s' child l
      | .null =>
          (insertFresh token id).map fun s' => .node value s' child l
termination_by t token _ => (token.length, sizeOf t)

/-- Index build: one `insert` call per (term, document id) pair, starting
from a single fresh root node, as the engine builds the term index. -/
def buildTrie (ops : List (List Int × Int)) : Option TrieNode :=
  ops.foldl (fun acc op => acc.bind fun t => t.insert op.1 op.2) (some freshNode)

example : buildTrie [([97], 0)] = some (TrieNode.node 97 .null .null none) := by
  simp [buildTrie, TrieNode.insert, insertFresh, freshNode]

example : (freshNode.insert [] 0) = none := by
  simp [TrieNode.insert, freshNode]

example : buildTrie [([99, 97], 0), ([99, 98], 1)] =
    some (TrieNode.node 99 .null
      (TrieNode.node 97 (TrieNode.node 98 .null .null none) .null none) none) := by
  simp [buildTrie, TrieNode.insert, insertFresh, freshNode]

/-- Number of allocated nodes of a trie: the finite size that the sibling
and child recursions of `insert` descend along. -/
def nsize : TrieNode → Nat
  | .null => 0
  | .node _ s c _ => 1 + nsize s + nsize c

/-- Step-counting instrumentation of `insertFresh`: `none` means the step
budget (`fuel`) ran out before the call returned. -/
def insertFreshFuel : Nat → List Int → Int → Option (Option TrieNode)
  | 0, _, _ => none
  | _ + 1, [], _ => some none
  | _ + 1, [c], _ => some (some (TrieNode.node c .null .null none))
  | fuel + 1, c :: c2 :: rest, id =>
      (insertFreshFuel fuel (c2 :: rest) id).map (Option.map fun ch =>
        TrieNode.node c .null ch none)

/-- Step-counting instrumentation of `TrieNode.insert`: each recursive call
of the source consumes one unit of `fuel`, and `none` means the budget ran
out.  Used to state that the recursion of `insert` terminates within an
explicit bound. -/
def insertFuel : Nat → TrieNode → List Int → Int → Option (Option TrieNode)
  | 0, _, _, _ => none
  | _ + 1, .null, _, _ => some none
  | fuel + 1, .node value sib child l, token, id =>
    if value = -1 ∨ value = token.headD 0 then
      match token with
      | [] => some none
      | [c] => some (some (.node c sib child l))
      | c :: c2 :: rest =>
        match child with
        | .node v2 s2 c2' l2 =>
            (insertFuel fuel (.node v2 s2 c2' l2) (c2 :: rest) id).map
              (Option.map fun ch' => .node c sib ch' l)
        | .null =>
            (insertFreshFuel fuel (c2 :: rest) id).map
              (Option.map fun ch' => .node c sib ch' l)
    else
      match sib with
      | .node v2 s2 c2' l2 =>
          (insertFuel fuel (.node v2 s2 c2' l2) token id).map
            (Option.map fun s' => .node value s' child l)
      | .null =>
          (insertFreshFuel fuel token id).map
            (Option.map fun s' => .node value s' child l)

/-! Unfolding equations for `TrieNode.insert`, one per source branch. -/

theorem insert_null (token : List Int) (id : Int) :
    TrieNode.null.insert token id = none := by
  rw [TrieNode.insert.eq_def]

theorem insert_nil (value : Int) (sib child : TrieNode) (l : Option (List Int))
    (id : Int) (hv : value = -1 ∨ value = ([] : List Int).headD 0) :
    (TrieNode.node value sib child l).insert [] id = none := by
  rw [TrieNode.insert.eq_def]
  dsimp only
  rw [if_pos hv]

theorem insert_cons1 (value : Int) (sib child : TrieNode) (l : Option (List Int))
    (id c : Int) (hv : value = -1 ∨ value = [c].headD 0) :
    (TrieNode.node value sib child l).insert [c] id = some (.node c sib child l) := by
  rw [TrieNode.insert.eq_def]
  dsimp only
  rw [if_pos hv]

theorem insert_child_node (value : Int) (sib : TrieNode) (l : Option (List Int))
    (id c c2 : Int) (rest : List Int) (v2 : Int) (s2 c2' : TrieNode)
    (l2 : Option (List Int)) (hv : value = -1 ∨ value = (c :: c2 :: rest).headD 0) :
    (TrieNode.node value sib (TrieNode.node v2 s2 c2' l2) l).insert (c :: c2 :: rest) id =
      ((TrieNode.node v2 s2 c2' l2).insert (c2 :: rest) id).map
        fun ch' => .node c sib ch' l := by
  rw [TrieNode.insert.eq_def]
  dsimp only
  rw [if_pos hv]

theorem insert_child_null (value : Int) (sib : TrieNode) (l : Option (List Int))
    (id c c2 : Int) (rest : List Int)
    (hv : value = -1 ∨ value = (c :: c2 :: rest).headD 0) :
    (TrieNode.node value sib TrieNode.null l).insert (c :: c2 :: rest) id =
      (insertFresh (c2 :: rest) id).map fun ch' => .node c sib ch' l := by
  rw [TrieNode.insert.eq_def]
  dsimp only
  rw [if_pos hv]

theorem insert_sib_node (value : Int) (child : TrieNode) (l : Option (List Int))
    (token : List Int) (id : Int) (hv : ¬ (value = -1 ∨ value = token.headD 0))
    (v2 : Int) (s2 c2' : TrieNode) (l2 : Option (List Int)) :
    (TrieNode.node value (TrieNode.node v2 s2 c2' l2) child l).insert token id =
      ((TrieNode.node v2 s2 c2' l2).insert token id).map
        fun s' => .node value s' child l := by
  rw [TrieNode.insert.eq_def]
  dsimp only
  rw [if_neg hv]

theorem insert_sib_null (value : Int) (child : TrieNode) (l : Option (List Int))
    (token : List Int) (id : Int) (hv : ¬ (value = -1 ∨ value = token.headD 0)) :
    (TrieNode.node value TrieNode.null child l).insert token id =
      (insertFresh token id).map fun s' => .node value s' child l := by
  rw [TrieNode.insert.eq_def]
  dsimp only
  rw [if_neg hv]

theorem insertFreshFuel_adequate :
    ∀ (token : List Int) (fuel : Nat) (id : Int), token.length + 1 ≤ fuel →
      insertFreshFuel fuel token id = some (insertFresh token id)
  | [], fuel, id, h => by
      obtain ⟨f, rfl⟩ : ∃ f, fuel = f + 1 := ⟨fuel - 1, by omega⟩
      rfl
  | [c], fuel, id, h => by
      obtain ⟨f, rfl⟩ : ∃ f, fuel = f + 1 := ⟨fuel - 1, by omega⟩
      rfl
  | c :: c2 :: rest, fuel, id, h => by
      obtain ⟨f, rfl⟩ : ∃ f, fuel = f + 1 := ⟨fuel - 1, by omega⟩
      have hrec := insertFreshFuel_adequate (c2 :: rest) f id (by
        simp at h ⊢; omega)
      simp [insertFreshFuel, insertFresh, hrec]

theorem insertFuel_adequate (t : TrieNode) (token : List Int) (id : Int) :
    ∀ fuel : Nat, token.length + 2 * nsize t + 1 ≤ fuel →
      insertFuel fuel t token id = some (t.insert token id) := by
  induction t, token, id using TrieNode.insert.induct with
  | case1 token id =>
      intro fuel h
      obtain ⟨f, rfl⟩ : ∃ f, fuel = f + 1 := ⟨fuel - 1, by omega⟩
      rw [insert_null]
      rfl
  | case2 value sib child l id hv =>
      intro fuel h
      obtain ⟨f, rfl⟩ : ∃ f, fuel = f + 1 := ⟨fuel - 1, by omega⟩
      rw [insert_nil _ _ _ _ _ hv]
      rw [insertFuel.eq_def]
      dsimp only
      rw [if_pos hv]
  | case3 value sib child l id c hv =>
      intro fuel h
      obtain ⟨f, rfl⟩ : ∃ f, fuel = f + 1 := ⟨fuel - 1, by omega⟩
      rw [insert_cons1 _ _ _ _ _ _ hv]
      rw [insertFuel.eq_def]
      dsimp only
      rw [if_pos hv]
  | case4 value sib l id c c2 rest v2 s2 c2' l2 hv ih =>
      intro fuel h
      obtain ⟨f, rfl⟩ : ∃ f, fuel = f + 1 := ⟨fuel - 1, by omega⟩
      rw [insert_child_node _ _ _ _ _ _ _ _ _ _ _ hv]
      rw [insertFuel.eq_def]
      dsimp only
      rw [if_pos hv]
      rw [ih f (by simp [nsize, List.length_cons] at h ⊢; omega)]
      rfl
  | case5 value sib l id c c2 rest hv =>
      intro fuel h
      obtain ⟨f, rfl⟩ : ∃ f, fuel = f + 1 := ⟨fuel - 1, by omega⟩
      rw [insert_child_null _ _ _ _ _ _ _ hv]
      rw [insertFuel.eq_def]
      dsimp only
      rw [if_pos hv]
      rw [insertFreshFuel_adequate (c2 :: rest) f id (by
        simp [List.length_cons] at h ⊢; omega)]
      rfl
  | case6 value child l token id hv v2 s2 c2' l2 ih =>
      intro fuel h
      obtain ⟨f, rfl⟩ : ∃ f, fuel = f + 1 := ⟨fuel - 1, by omega⟩
      rw [insert_sib_node _ _ _ _ _ hv]
      rw [insertFuel.eq_def]
      dsimp only
      rw [if_neg hv]
      rw [ih f (by simp [nsize] at h ⊢; omega)]
      rfl
  | case7 value child l token id hv =>
      intro fuel h
      obtain ⟨f, rfl⟩ : ∃ f, fuel = f + 1 := ⟨fuel - 1, by omega⟩
      rw [insert_sib_null _ _ _ _ _ hv]
      rw [insertFuel.eq_def]
      dsimp only
      rw [if_neg hv]
      rw [insertFreshFuel_adequate token f id (by simp [nsize] at h; omega)]
      rfl

theorem insertFresh_ne_none (token : List Int) (id : Int) (h : token ≠ []) :
    insertFresh token id ≠ none := by
  match token with
  | [c] => simp [insertFresh]
  | c :: c2 :: rest =>
    have := insertFresh_ne_none (c2 :: rest) id (by simp)
    simp [insertFresh, Option.map_eq_none', this]

theorem insert_ne_none (t : TrieNode) (token : List Int) (id : Int)
    (ht : t ≠ .null) (htok : token ≠ []) : t.insert token id ≠ none := by
  induction t, token, id using TrieNode.insert.induct with
  | case1 token id => exact absurd rfl ht
  | case2 value sib child l id hv => exact absurd rfl htok
  | case3 value sib child l id c hv =>
      rw [insert_cons1 _ _ _ _ _ _ hv]
      simp
  | case4 value sib l id c c2 rest v2 s2 c2' l2 hv ih =>
      rw [insert_child_node _ _ _ _ _ _ _ _ _ _ _ hv]
      simp only [ne_eq, Option.map_eq_none']
      exact ih (by simp) (by simp)
  | case5 value sib l id c c2 rest hv =>
      rw [insert_child_null _ _ _ _ _ _ _ hv]
      simp only [ne_eq, Option.map_eq_none']
      exact insertFresh_ne_none (c2 :: rest) id (by simp)
  | case6 value child l token id hv v2 s2 c2' l2 ih =>
      rw [insert_sib_node _ _ _ _ _ hv]
      simp only [ne_eq, Option.map_eq_none']
      exact ih (by simp) htok
  | case7 value child l token id hv =>
      rw [insert_sib_null _ _ _ _ _ hv]
      simp only [ne_eq, Option.map_eq_none']
      exact insertFresh_ne_none token id htok

theorem insertFresh_id (token : List Int) (i j : Int) :
    insertFresh token i = insertFresh token j := by
  match token with
  | [] => rfl
  | [c] => rfl
  | c :: c2 :: rest => simp [insertFresh, insertFresh_id (c2 :: rest) i j]

theorem insert_id (t : TrieNode) (token : List Int) (i : Int) :
    ∀ j : Int, t.insert token i = t.insert token j := by
  induction t, token, i using TrieNode.insert.induct with
  | case1 token id => intro j; rw [insert_null, insert_null]
  | case2 value sib child l id hv =>
      intro j
      rw [insert_nil _ _ _ _ _ hv, insert_nil _ _ _ _ _ hv]
  | case3 value sib child l id c hv =>
      intro j
      rw [insert_cons1 _ _ _ _ _ _ hv, insert_cons1 _ _ _ _ _ _ hv]
  | case4 value sib l id c c2 rest v2 s2 c2' l2 hv ih =>
      intro j
      rw [insert_child_node _ _ _ _ _ _ _ _ _ _ _ hv,
        insert_child_node _ _ _ _ _ _ _ _ _ _ _ hv, ih j]
  | case5 value sib l id c c2 rest hv =>
      intro j
      rw [insert_child_null _ _ _ _ _ _ _ hv, insert_child_null _ _ _ _ _ _ _ hv,
        insertFresh_id (c2 :: rest) id j]
  | case6 value child l token id hv v2 s2 c2' l2 ih =>
      intro j
      rw [insert_sib_node _ _ _ _ _ hv, insert_sib_node _ _ _ _ _ hv, ih j]
  | case7 value child l token id hv =>
      intro j
      rw [insert_sib_null _ _ _ _ _ hv, insert_sib_null _ _ _ _ _ hv,
        insertFresh_id token id j]

/-- C10: for every non-empty token and every finite, acyclic trie node,
`TrieNode::insert` terminates: the step-instrumented recursion completes
within the explicit budget of token length plus twice the node count plus
one (each child recursion shortens the token, each sibling recursion
shortens the sibling chain, and a fresh sibling accepts the character
immediately), and for a non-empty token the call returns normally. -/
theorem c10_insert_terminates (t : TrieNode) (token : List Int) (id : Int)
    (ht : t ≠ .null) (htok : token ≠ []) :
    insertFuel (token.length + 2 * nsize t + 1) t token id =
        some (t.insert token id) ∧
      t.insert token id ≠ none :=
  ⟨insertFuel_adequate t token id _ (le_refl _), insert_ne_none t token id ht htok⟩

/-- Witness for C10 at the concrete token "ab" on a fresh root. -/
theorem c10_insert_terminates_witness :
    insertFuel 5 freshNode [97, 98] 0 = some (freshNode.insert [97, 98] 0) ∧
      freshNode.insert [97, 98] 0 ≠ none :=
  c10_insert_terminates freshNode [97, 98] 0 (by simp [freshNode]) (by simp)

/-- C9: the trie produced by `TrieNode::insert` does not depend on the
`documentId` argument in any way: inserting the same token with any two
document ids yields identical tries (the source threads `id` through every
recursive call but never reads it). -/
theorem c9_insert_id_independent (t : TrieNode) (token : List Int) (i j : Int)
    (_htok : token ≠ []) : t.insert token i = t.insert token j :=
  insert_id t token i j

/-- Witness for C9 at the concrete token "a" with document ids 3 and 7. -/
theorem c9_insert_id_independent_witness :
    freshNode.insert [97] 3 = freshNode.insert [97] 7 :=
  c9_insert_id_independent freshNode [97] 3 7 (by simp)

/-- C4 fails on the code: `insert` with an empty term is not a no-op.  On a
fresh root the source overwrites `value` with the NUL character, allocates
a child node, and then recurses on `token+1`, which reads past the end of
the token buffer — undefined behavior, embedded as `none`; in particular
the call does not return leaving the trie unchanged. -/
theorem c4_insert_empty_not_noop :
    freshNode.insert [] 0 = none ∧ freshNode.insert [] 0 ≠ some freshNode := by
  constructor
  · simp [TrieNode.insert, freshNode]
  · simp [TrieNode.insert, freshNode]

/-- C3 fails on the code: after inserting the complete term "a" (character
97, document 0) into a fresh root, the root is the terminal node of that
term, yet its posting list is still unset (`none`, since the
`initialise list` step of `TrieNode::insert` is only a comment): a
terminal node with no associated non-empty Posting List. -/
theorem c3_terminal_without_posting :
    buildTrie [([97], 0)] = some (TrieNode.node 97 .null .null none) := by
  simp [buildTrie, TrieNode.insert, freshNode]

/-- Whether any node of the trie owns a posting list. -/
def hasPosting : TrieNode → Bool
  | .null => false
  | .node _ s c l => l.isSome || hasPosting s || hasPosting c

theorem insertFresh_hasPosting (token : List Int) (id : Int) (t' : TrieNode)
    (h : insertFresh token id = some t') : hasPosting t' = false := by
  match token with
  | [] => simp [insertFresh] at h
  | [c] =>
    simp [insertFresh] at h
    subst h
    simp [hasPosting]
  | c :: c2 :: rest =>
    simp [insertFresh, Option.map_eq_some'] at h
    obtain ⟨ch, hch, rfl⟩ := h
    simp [hasPosting, insertFresh_hasPosting (c2 :: rest) id ch hch]

/-- C1 fails on the code: `insert` never creates or extends any posting
list (the `initialise list` step is only a comment and `id` is discarded),
so whatever `lookup` walks to, the trie holds no document ids: a lookup of
an inserted term cannot return a Posting List containing the ids it was
inserted with. -/
theorem c1_insert_stores_no_posting (t : TrieNode) (token : List Int)
    (id : Int) (t' : TrieNode) (h : t.insert token id = some t') :
    hasPosting t' = hasPosting t := by
  induction t, token, id using TrieNode.insert.induct generalizing t' with
  | case1 token id => rw [insert_null] at h; exact absurd h (by simp)
  | case2 value sib child l id hv =>
      rw [insert_nil _ _ _ _ _ hv] at h
      exact absurd h (by simp)
  | case3 value sib child l id c hv =>
      rw [insert_cons1 _ _ _ _ _ _ hv] at h
      obtain rfl : TrieNode.node c sib child l = t' := by injection h
      simp [hasPosting]
  | case4 value sib l id c c2 rest v2 s2 c2' l2 hv ih =>
      rw [insert_child_node _ _ _ _ _ _ _ _ _ _ _ hv] at h
      rw [Option.map_eq_some'] at h
      obtain ⟨ch', hch, rfl⟩ := h
      simp [hasPosting, ih ch' hch]
  | case5 value sib l id c c2 rest hv =>
      rw [insert_child_null _ _ _ _ _ _ _ hv] at h
      rw [Option.map_eq_some'] at h
      obtain ⟨ch', hch, rfl⟩ := h
      simp [hasPosting, insertFresh_hasPosting (c2 :: rest) id ch' hch]
  | case6 value child l token id hv v2 s2 c2' l2 ih =>
      rw [insert_sib_node _ _ _ _ _ hv] at h
      rw [Option.map_eq_some'] at h
      obtain ⟨s', hs, rfl⟩ := h
      simp only [hasPosting, ih s' hs]
  | case7 value child l token id hv =>
      rw [insert_sib_null _ _ _ _ _ hv] at h
      rw [Option.map_eq_some'] at h
      obtain ⟨s', hs, rfl⟩ := h
      simp [hasPosting, insertFresh_hasPosting token id s' hs]

/-- Witness for C1: inserting the term "cat" for document 7 yields a trie
that, like the fresh root, holds no posting list at all. -/
theorem c1_insert_stores_no_posting_witness :
    hasPosting (TrieNode.node 99 .null
        (TrieNode.node 97 .null (TrieNode.node 116 .null .null none) none)
        none) =
      hasPosting freshNode :=
  c1_insert_stores_no_posting freshNode [99, 97, 116] 7 _
    (by simp [TrieNode.insert, insertFresh, freshNode])

/-- Values along a sibling chain starting at a given node. -/
def chainVals : TrieNode → List Int
  | .null => []
  | .node v s _ _ => v :: chainVals s

/-- Executable distinctness check for a list of character values. -/
def nodupB : List Int → Bool
  | [] => true
  | x :: xs => (!xs.contains x) && nodupB xs

/-- Every sibling chain reachable from a common parent (the chain hanging
off each node's child pointer) has pairwise distinct values. -/
def chainsDistinct : TrieNode → Bool
  | .null => true
  | .node _ s c _ => nodupB (chainVals c) && chainsDistinct c && chainsDistinct s

/-- The claimed invariant: all sibling chains of the trie, the root chain
included, carry pairwise distinct character values. -/
def distinctSiblings (t : TrieNode) : Bool :=
  nodupB (chainVals t) && chainsDistinct t

/-- Strengthened inductive invariant: a node whose value is still the
unset sentinel `-1` has no sibling (the source only creates a sibling
after the value is set), and every child chain has distinct values. -/
def okAll : TrieNode → Prop
  | .null => True
  | .node v s c _ =>
      (v = -1 → s = .null) ∧ (chainVals c).Nodup ∧ okAll c ∧ okAll s

/-- Effect of one `insert` on the value list of the sibling chain it scans:
the first node whose value is unset or equal to the head character takes
the head character; if no node matches, a new value is appended. -/
def updateChain (c : Int) : List Int → List Int
  | [] => [c]
  | v :: rest => if v = -1 ∨ v = c then c :: rest else v :: updateChain c rest

theorem insertFresh_chainVals (token : List Int) (id : Int) (t' : TrieNode)
    (h : insertFresh token id = some t') : chainVals t' = [token.headD 0] := by
  match token with
  | [] => simp [insertFresh] at h
  | [c] =>
    simp [insertFresh] at h
    subst h
    simp [chainVals]
  | c :: c2 :: rest =>
    simp [insertFresh, Option.map_eq_some'] at h
    obtain ⟨ch, _, rfl⟩ := h
    simp [chainVals]

theorem insertFresh_okAll (token : List Int) (id : Int) (t' : TrieNode)
    (h : insertFresh token id = some t') : okAll t' := by
  match token with
  | [] => simp [insertFresh] at h
  | [c] =>
    simp [insertFresh] at h
    subst h
    simp [okAll, chainVals]
  | c :: c2 :: rest =>
    simp [insertFresh, Option.map_eq_some'] at h
    obtain ⟨ch, hch, rfl⟩ := h
    refine ⟨fun _ => rfl, ?_, insertFresh_okAll (c2 :: rest) id ch hch, trivial⟩
    rw [insertFresh_chainVals (c2 :: rest) id ch hch]
    simp

theorem insert_chainVals (t : TrieNode) (token : List Int) (id : Int) :
    ∀ t', t.insert token id = some t' →
      chainVals t' = updateChain (token.headD 0) (chainVals t) := by
  induction t, token, id using TrieNode.insert.induct with
  | case1 token id =>
      intro t' h
      rw [insert_null] at h
      exact absurd h (by simp)
  | case2 value sib child l id hv =>
      intro t' h
      rw [insert_nil _ _ _ _ _ hv] at h
      exact absurd h (by simp)
  | case3 value sib child l id c hv =>
      intro t' h
      rw [insert_cons1 _ _ _ _ _ _ hv] at h
      obtain rfl : TrieNode.node c sib child l = t' := by injection h
      simp only [chainVals, updateChain, List.headD] at hv ⊢
      rw [if_pos hv]
  | case4 value sib l id c c2 rest v2 s2 c2' l2 hv ih =>
      intro t' h
      rw [insert_child_node _ _ _ _ _ _ _ _ _ _ _ hv] at h
      rw [Option.map_eq_some'] at h
      obtain ⟨ch', _, rfl⟩ := h
      simp only [chainVals, updateChain, List.headD] at hv ⊢
      rw [if_pos hv]
  | case5 value sib l id c c2 rest hv =>
      intro t' h
      rw [insert_child_null _ _ _ _ _ _ _ hv] at h
      rw [Option.map_eq_some'] at h
      obtain ⟨ch', _, rfl⟩ := h
      simp only [chainVals, updateChain, List.headD] at hv ⊢
      rw [if_pos hv]
  | case6 value child l token id hv v2 s2 c2' l2 ih =>
      intro t' h
      rw [insert_sib_node _ _ _ _ _ hv] at h
      rw [Option.map_eq_some'] at h
      obtain ⟨s', hs, rfl⟩ := h
      have hns : ¬ (value = -1 ∨ value = token.headD 0) := hv
      simp only [chainVals, updateChain]
      rw [if_neg hns, ih s' hs]
      simp only [chainVals, updateChain]
  | case7 value child l token id hv =>
      intro t' h
      rw [insert_sib_null _ _ _ _ _ hv] at h
      rw [Option.map_eq_some'] at h
      obtain ⟨s', hs, rfl⟩ := h
      simp only [chainVals, updateChain]
      rw [if_neg hv, insertFresh_chainVals token id s' hs]

theorem mem_updateChain (c : Int) : ∀ (l : List Int) (x : Int),
    x ∈ updateChain c l → x ∈ l ∨ x = c := by
  intro l
  induction l with
  | nil => intro x hx; simp [updateChain] at hx; exact Or.inr hx
  | cons v rest ih =>
    intro x hx
    by_cases hvc : v = -1 ∨ v = c
    · rw [updateChain, if_pos hvc] at hx
      rcases List.mem_cons.mp hx with h1 | h1
      · exact Or.inr h1
      · exact Or.inl (List.mem_cons_of_mem _ h1)
    · rw [updateChain, if_neg hvc] at hx
      rcases List.mem_cons.mp hx with h1 | h1
      · exact Or.inl (h1 ▸ List.mem_cons_self _ _)
      · rcases ih x h1 with h2 | h2
        · exact Or.inl (List.mem_cons_of_mem _ h2)
        · exact Or.inr h2

theorem updateChain_ne_nil (c : Int) (l : List Int) : updateChain c l ≠ [] := by
  cases l with
  | nil => simp [updateChain]
  | cons v rest =>
    rw [updateChain]
    by_cases hvc : v = -1 ∨ v = c
    · rw [if_pos hvc]; simp
    · rw [if_neg hvc]; simp

theorem okAll_neg_dropLast (t : TrieNode) (h : okAll t) :
    (-1 : Int) ∉ (chainVals t).dropLast := by
  induction t with
  | null => simp [chainVals]
  | node v s c lst ihs ihc =>
    obtain ⟨haux, _, _, hoks⟩ := h
    cases s with
    | null => simp [chainVals]
    | node v2 s2 c2 l2 =>
      have hv : v ≠ -1 := fun hv1 => by
        exact absurd (haux hv1) (by simp)
      simp only [chainVals, List.dropLast_cons₂, List.mem_cons, not_or]
      refine ⟨fun h1 => hv h1.symm, ?_⟩
      have := ihs hoks
      simpa [chainVals] using this

theorem updateChain_nodup (c : Int) : ∀ l : List Int, l.Nodup →
    (-1 : Int) ∉ l.dropLast →
    (updateChain c l).Nodup ∧ (-1 : Int) ∉ (updateChain c l).dropLast := by
  intro l
  induction l with
  | nil =>
    intro _ _
    constructor
    · simp [updateChain]
    · simp [updateChain]
  | cons v rest ih =>
    intro hnd hneg
    by_cases hvc : v = -1 ∨ v = c
    · rw [updateChain, if_pos hvc]
      by_cases hvceq : v = c
      · subst hvceq
        exact ⟨hnd, hneg⟩
      · have hv1 : v = -1 := hvc.resolve_right hvceq
        subst hv1
        have hrest : rest = [] := by
          cases rest with
          | nil => rfl
          | cons r rs =>
            exfalso
            apply hneg
            rw [List.dropLast_cons₂]
            exact List.mem_cons_self _ _
        subst hrest
        constructor
        · simp
        · simp
    · rw [updateChain, if_neg hvc]
      have hnd' := List.nodup_cons.mp hnd
      have hnegrest : (-1 : Int) ∉ rest.dropLast := by
        cases rest with
        | nil => simp
        | cons r rs =>
          intro hmem
          apply hneg
          rw [List.dropLast_cons₂]
          exact List.mem_cons_of_mem _ hmem
      obtain ⟨hu, hnegu⟩ := ih hnd'.2 hnegrest
      have hvnotin : v ∉ updateChain c rest := by
        intro hm
        rcases mem_updateChain c rest v hm with h1 | h1
        · exact hnd'.1 h1
        · exact hvc (Or.inr h1)
      refine ⟨List.nodup_cons.mpr ⟨hvnotin, hu⟩, ?_⟩
      have hvne : v ≠ -1 := fun h1 => hvc (Or.inl h1)
      cases hu' : updateChain c rest with
      | nil => exact absurd hu' (updateChain_ne_nil c rest)
      | cons a as =>
        rw [hu'] at hnegu
        rw [List.dropLast_cons₂]
        simp only [List.mem_cons, not_or]
        exact ⟨fun h1 => hvne h1.symm, hnegu⟩

theorem insert_okAll (t : TrieNode) (token : List Int) (id : Int) :
    ∀ t', t.insert token id = some t' → okAll t → okAll t' := by
  induction t, token, id using TrieNode.insert.induct with
  | case1 token id =>
      intro t' h
      rw [insert_null] at h
      exact absurd h (by simp)
  | case2 value sib child l id hv =>
      intro t' h
      rw [insert_nil _ _ _ _ _ hv] at h
      exact absurd h (by simp)
  | case3 value sib child l id c hv =>
      intro t' h hok
      rw [insert_cons1 _ _ _ _ _ _ hv] at h
      obtain rfl : TrieNode.node c sib child l = t' := by injection h
      obtain ⟨haux, hnd, hokc, hoks⟩ := hok
      refine ⟨fun hc => ?_, hnd, hokc, hoks⟩
      apply haux
      simp only [List.headD] at hv
      rcases hv with h1 | h1
      · exact h1
      · rw [h1, hc]
  | case4 value sib l id c c2 rest v2 s2 c2' l2 hv ih =>
      intro t' h hok
      rw [insert_child_node _ _ _ _ _ _ _ _ _ _ _ hv] at h
      rw [Option.map_eq_some'] at h
      obtain ⟨ch', hch, rfl⟩ := h
      obtain ⟨haux, hnd, hokc, hoks⟩ := hok
      refine ⟨fun hc => ?_, ?_, ih ch' hch hokc, hoks⟩
      · apply haux
        simp only [List.headD] at hv
        rcases hv with h1 | h1
        · exact h1
        · rw [h1, hc]
      · rw [insert_chainVals _ _ _ ch' hch]
        exact (updateChain_nodup _ _ hnd (okAll_neg_dropLast _ hokc)).1
  | case5 value sib l id c c2 rest hv =>
      intro t' h hok
      rw [insert_child_null _ _ _ _ _ _ _ hv] at h
      rw [Option.map_eq_some'] at h
      obtain ⟨ch', hch, rfl⟩ := h
      obtain ⟨haux, hnd, hokc, hoks⟩ := hok
      refine ⟨fun hc => ?_, ?_, insertFresh_okAll _ _ ch' hch, hoks⟩
      · apply haux
        simp only [List.headD] at hv
        rcases hv with h1 | h1
        · exact h1
        · rw [h1, hc]
      · rw [insertFresh_chainVals _ _ ch' hch]
        simp
  | case6 value child l token id hv v2 s2 c2' l2 ih =>
      intro t' h hok
      rw [insert_sib_node _ _ _ _ _ hv] at h
      rw [Option.map_eq_some'] at h
      obtain ⟨s', hs, rfl⟩ := h
      obtain ⟨haux, hnd, hokc, hoks⟩ := hok
      exact ⟨fun hc => absurd (Or.inl hc) hv, hnd, hokc, ih s' hs hoks⟩
  | case7 value child l token id hv =>
      intro t' h hok
      rw [insert_sib_null _ _ _ _ _ hv] at h
      rw [Option.map_eq_some'] at h
      obtain ⟨s', hs, rfl⟩ := h
      obtain ⟨haux, hnd, hokc, hoks⟩ := hok
      exact ⟨fun hc => absurd (Or.inl hc) hv, hnd, hokc,
        insertFresh_okAll _ _ s' hs⟩

theorem foldl_insert_none (ops : List (List Int × Int)) :
    ops.foldl (fun acc op => acc.bind fun u => u.insert op.1 op.2)
      (none : Option TrieNode) = none := by
  induction ops with
  | nil => rfl
  | cons op ops ih => simpa using ih

theorem foldl_insert_inv (ops : List (List Int × Int)) :
    ∀ t0 t : TrieNode, (chainVals t0).Nodup → okAll t0 →
      ops.foldl (fun acc op => acc.bind fun u => u.insert op.1 op.2) (some t0) =
        some t →
      (chainVals t).Nodup ∧ okAll t := by
  induction ops with
  | nil =>
    intro t0 t h1 h2 h
    obtain rfl : t0 = t := by injection h
    exact ⟨h1, h2⟩
  | cons op ops ih =>
    intro t0 t h1 h2 h
    simp only [List.foldl_cons, Option.some_bind] at h
    rcases hstep : t0.insert op.1 op.2 with _ | t1
    · rw [hstep, foldl_insert_none] at h
      exact absurd h (by simp)
    · rw [hstep] at h
      have hcv : (chainVals t1).Nodup := by
        rw [insert_chainVals t0 op.1 op.2 t1 hstep]
        exact (updateChain_nodup _ _ h1 (okAll_neg_dropLast t0 h2)).1
      exact ih t1 t hcv (insert_okAll t0 op.1 op.2 t1 hstep h2) h

theorem nodupB_iff (l : List Int) : nodupB l = true ↔ l.Nodup := by
  induction l with
  | nil => simp [nodupB]
  | cons x xs ih =>
    simp [nodupB, List.nodup_cons, ih]

theorem okAll_chainsDistinct (t : TrieNode) (h : okAll t) :
    chainsDistinct t = true := by
  induction t with
  | null => rfl
  | node v s c lst ihs ihc =>
    obtain ⟨_, hnd, hokc, hoks⟩ := h
    simp [chainsDistinct, (nodupB_iff _).mpr hnd, ihc hokc, ihs hoks]

/-- C5: every trie reachable by a sequence of `insert` calls starting from
a fresh root keeps pairwise distinct character values on every sibling
chain: `insert` never creates a sibling whose character duplicates one
already on that chain. -/
theorem c5_sibling_chains_distinct (ops : List (List Int × Int)) (t : TrieNode)
    (h : buildTrie ops = some t) : distinctSiblings t = true := by
  have hfresh1 : (chainVals freshNode).Nodup := by simp [freshNode, chainVals]
  have hfresh2 : okAll freshNode :=
    ⟨fun _ => rfl, by simp [chainVals], trivial, trivial⟩
  obtain ⟨h1, h2⟩ := foldl_insert_inv ops freshNode t hfresh1 hfresh2 h
  simp [distinctSiblings, (nodupB_iff _).mpr h1, okAll_chainsDistinct t h2]

/-- Witness for C5 on the concrete build cat/0, car/1, dog/2, whose trie
has a sibling split both at the root (c vs d) and at depth three (t vs r). -/
theorem c5_sibling_chains_distinct_witness :
    distinctSiblings (TrieNode.node 99
      (TrieNode.node 100 .null
        (TrieNode.node 111 .null (TrieNode.node 103 .null .null none) none) none)
      (TrieNode.node 97 .null
        (TrieNode.node 116 (TrieNode.node 114 .null .null none) .null none) none)
      none) = true :=
  c5_sibling_chains_distinct
    [([99, 97, 116], 0), ([99, 97, 114], 1), ([100, 111, 103], 2)] _
    (by simp [buildTrie, TrieNode.insert, insertFresh, freshNode])

/-- A Selector entry: a (score, document id) pair as in §3 of the spec.
Scores are embedded as integers: only their ordering matters to the
Selector contract. -/
structure Entry where
  score : Int
  id : Int
deriving DecidableEq

/-- Ranking order of the specification: higher score first, ties broken by
lower document id first (reflexive, so it is usable as a sorting order). -/
def entLE (a b : Entry) : Prop :=
  b.score < a.score ∨ (a.score = b.score ∧ a.id ≤ b.id)

/-- Strict ranking order: strictly higher score, or equal score and
strictly lower document id. -/
def entLT (a b : Entry) : Prop :=
  b.score < a.score ∨ (a.score = b.score ∧ a.id < b.id)

instance : DecidableRel entLE := fun a b => by
  unfold entLE
  exact inferInstance

instance : DecidableRel entLT := fun a b => by
  unfold entLT
  exact inferInstance

instance : IsTotal Entry entLE :=
  ⟨fun a b => by unfold entLE; omega⟩

instance : IsTrans Entry entLE :=
  ⟨fun a b c hab hbc => by unfold entLE at hab hbc ⊢; omega⟩

instance : IsAntisymm Entry entLE :=
  ⟨fun a b hab hba => by
    cases a
    cases b
    simp only [entLE] at hab hba
    simp only [Entry.mk.injEq]
    omega⟩

/-- Modelled from the spec: the bounded top-k Selector of §4.3.  The
`Maxheap` method bodies of the source are missing (only the class
declaration `src/header/Maxheap.hpp` is given), so the Selector follows
the specification: the held entries are kept ranked best-first, and
`offer` inserts the new entry at its rank and truncates to capacity `k`.
While fewer than k entries are held this inserts unconditionally;
otherwise it evicts the current minimum exactly when the new entry beats
it under the ranking order, with ties at the eviction boundary keeping
the lower document id. -/
structure Selector where
  k : Nat
  held : List Entry

/-- Modelled from the spec (§4.3): offer one (score, id) pair. -/
def offer (sel : Selector) (e : Entry) : Selector :=
  ⟨sel.k, (sel.held.orderedInsert entLE e).take sel.k⟩

/-- Modelled from the spec (§4.3): destructively extract all held entries,
best first; the Selector is left empty for reuse. -/
def drain (sel : Selector) : List Entry × Selector :=
  (sel.held, ⟨sel.k, []⟩)

/-- The canonical ranking of a list of entries: best score first, ties by
lower document id. -/
def sortEntries (l : List Entry) : List Entry := l.insertionSort entLE

theorem take_orderedInsert_take (e : Entry) :
    ∀ (s : List Entry) (k : Nat),
      ((s.take k).orderedInsert entLE e).take k =
        (s.orderedInsert entLE e).take k := by
  intro s
  induction s with
  | nil => intro k; simp
  | cons b t ih =>
    intro k
    cases k with
    | zero => simp
    | succ k' =>
      simp only [List.take_succ_cons, List.orderedInsert]
      by_cases h : entLE e b
      · rw [if_pos h, if_pos h]
        simp only [List.take_succ_cons]
        congr 1
        cases k' with
        | zero => simp
        | succ k'' =>
          simp only [List.take_succ_cons]
          congr 1
          rw [List.take_take]
          congr 1
          omega
      · rw [if_neg h, if_neg h]
        simp only [List.take_succ_cons]
        congr 1
        exact ih k'

theorem sortEntries_perm_eq (l1 l2 : List Entry) (h : l1.Perm l2) :
    sortEntries l1 = sortEntries l2 :=
  List.eq_of_perm_of_sorted
    ((List.perm_insertionSort entLE l1).trans
      (h.trans (List.perm_insertionSort entLE l2).symm))
    (List.sorted_insertionSort entLE l1)
    (List.sorted_insertionSort entLE l2)

theorem foldl_offer_held (k : Nat) (l : List Entry) :
    ∀ m : List Entry,
      (l.foldl offer ⟨k, (sortEntries m).take k⟩).held =
          (sortEntries (l ++ m)).take k ∧
        (l.foldl offer ⟨k, (sortEntries m).take k⟩).k = k := by
  induction l with
  | nil => intro m; exact ⟨rfl, rfl⟩
  | cons x l ih =>
    intro m
    simp only [List.foldl_cons]
    have hof : offer ⟨k, (sortEntries m).take k⟩ x =
        ⟨k, (sortEntries (x :: m)).take k⟩ := by
      simp only [offer]
      rw [take_orderedInsert_take]
      rfl
    rw [hof]
    refine ⟨?_, (ih (x :: m)).2⟩
    rw [(ih (x :: m)).1]
    exact congrArg (List.take k)
      (sortEntries_perm_eq _ _ List.perm_middle)

theorem pairwise_and {α : Type} {R S : α → α → Prop} :
    ∀ {l : List α}, l.Pairwise R → l.Pairwise S →
      l.Pairwise fun a b => R a b ∧ S a b := by
  intro l h1 h2
  induction l with
  | nil => exact List.Pairwise.nil
  | cons a t ih =>
    rcases List.pairwise_cons.mp h1 with ⟨ha1, ht1⟩
    rcases List.pairwise_cons.mp h2 with ⟨ha2, ht2⟩
    exact List.pairwise_cons.mpr ⟨fun b hb => ⟨ha1 b hb, ha2 b hb⟩, ih ht1 ht2⟩

theorem entLT_of_le_ne (a b : Entry) (h1 : entLE a b) (h2 : a ≠ b) :
    entLT a b := by
  unfold entLE at h1
  unfold entLT
  rcases h1 with h | ⟨hs, hi⟩
  · exact Or.inl h
  · refine Or.inr ⟨hs, lt_of_le_of_ne hi fun hid => h2 ?_⟩
    cases a
    cases b
    simp only [Entry.mk.injEq]
    exact ⟨hs, hid⟩

/-- C2 (Selector modelled from the spec, the `Maxheap` bodies being absent
from the sources): for every sequence of pairwise distinct offers and
every capacity k, draining yields exactly min(k, number of distinct
offers) entries — precisely the first k of the canonically ranked offers —
in strictly descending score order with ties broken by keeping and ranking
the lower document id first, and the Selector is empty after the drain. -/
theorem c2_selector_topk (k : Nat) (offers : List Entry)
    (hnd : offers.Nodup) :
    (drain (offers.foldl offer ⟨k, []⟩)).1 = (sortEntries offers).take k ∧
    (drain (offers.foldl offer ⟨k, []⟩)).1.length = min k offers.length ∧
    (drain (offers.foldl offer ⟨k, []⟩)).1.Pairwise entLT ∧
    (drain (offers.foldl offer ⟨k, []⟩)).2.held = [] := by
  have h0 : (⟨k, []⟩ : Selector) =
      ⟨k, (sortEntries ([] : List Entry)).take k⟩ := by
    simp [sortEntries]
  have hdrain : (drain (offers.foldl offer ⟨k, []⟩)).1 =
      (sortEntries offers).take k := by
    rw [h0]
    show (offers.foldl offer ⟨k, (sortEntries ([] : List Entry)).take k⟩).held = _
    rw [(foldl_offer_held k offers []).1, List.append_nil]
  refine ⟨hdrain, ?_, ?_, rfl⟩
  · rw [hdrain, List.length_take]
    simp only [sortEntries]
    rw [(List.perm_insertionSort entLE offers).length_eq]
  · rw [hdrain]
    have hsorted : (sortEntries offers).Pairwise entLE :=
      List.sorted_insertionSort entLE offers
    have hnd' : (sortEntries offers).Pairwise (· ≠ ·) :=
      ((List.perm_insertionSort entLE offers).nodup_iff.mpr hnd : _)
    exact ((pairwise_and hsorted hnd').imp
      fun h => entLT_of_le_ne _ _ h.1 h.2).sublist (List.take_sublist _ _)

/-- Witness for C2: four distinct offers, capacity two. -/
theorem c2_selector_topk_witness :
    (drain ([⟨3, 2⟩, ⟨5, 1⟩, ⟨3, 1⟩, ⟨1, 7⟩].foldl offer ⟨2, []⟩)).1 =
        (sortEntries [⟨3, 2⟩, ⟨5, 1⟩, ⟨3, 1⟩, ⟨1, 7⟩]).take 2 ∧
      (drain ([⟨3, 2⟩, ⟨5, 1⟩, ⟨3, 1⟩, ⟨1, 7⟩].foldl offer ⟨2, []⟩)).1.length =
        min 2 ([⟨3, 2⟩, ⟨5, 1⟩, ⟨3, 1⟩, ⟨1, 7⟩] : List Entry).length ∧
      (drain ([⟨3, 2⟩, ⟨5, 1⟩, ⟨3, 1⟩, ⟨1, 7⟩].foldl offer ⟨2, []⟩)).1.Pairwise
        entLT ∧
      (drain ([⟨3, 2⟩, ⟨5, 1⟩, ⟨3, 1⟩, ⟨1, 7⟩].foldl offer ⟨2, []⟩)).2.held = [] :=
  c2_selector_topk 2 [⟨3, 2⟩, ⟨5, 1⟩, ⟨3, 1⟩, ⟨1, 7⟩] (by decide)

example :
    (drain ([⟨3, 2⟩, ⟨5, 1⟩, ⟨3, 1⟩, ⟨1, 7⟩].foldl offer ⟨2, []⟩)).1 =
      [⟨5, 1⟩, ⟨3, 1⟩] := by decide

/-- C8 (Selector modelled from the spec): draining an empty Selector
yields the empty sequence and leaves the Selector empty — a normal
outcome, not an error — and `offer` with a negative score is accepted like
any other score: on an empty Selector of positive capacity the entry is
simply held. -/
theorem c8_drain_empty_offer_negative (k : Nat) (s i : Int)
    (_hneg : s < 0) (hk : 0 < k) :
    (drain ⟨k, []⟩).1 = [] ∧ (drain ⟨k, []⟩).2.held = [] ∧
      (offer ⟨k, []⟩ ⟨s, i⟩).held = [⟨s, i⟩] := by
  refine ⟨rfl, rfl, ?_⟩
  simp only [offer, List.orderedInsert_nil]
  cases k with
  | zero => omega
  | succ k' => simp

/-- Witness for C8 at capacity 2 with the negative score -3. -/
theorem c8_drain_empty_offer_negative_witness :
    (drain ⟨2, []⟩).1 = [] ∧ (drain ⟨2, []⟩).2.held = [] ∧
      (offer ⟨2, []⟩ ⟨-3, 7⟩).held = [⟨-3, 7⟩] :=
  c8_drain_empty_offer_negative 2 (-3) 7 (by norm_num) (by norm_num)

/-- The whitespace trimmed by `Mymap::insert` in `src/src/Map.cpp`: space
and tab. -/
def isWs (c : Char) : Bool := c = ' ' || c = '\t'

/-- The trailing-newline removal of `Mymap::insert`: if the line is
non-empty and its last character is a newline, that one character is
dropped. -/
def dropNewline (l : List Char) : List Char :=
  if l.getLast? = some '\n' then l.dropLast else l

/-- The leading-whitespace loop of `Mymap::insert`: advance `start` past
spaces and tabs. -/
def trimLeading (l : List Char) : List Char := l.dropWhile isWs

/-- The trailing-whitespace loop of `Mymap::insert`: `end` walks back over
spaces and tabs, but the guard `end > start` never lets it remove the
first character, so the head is kept as is and the trailing whitespace of
the tail is stripped. -/
def trimTrailingLoop : List Char → List Char
  | [] => []
  | c :: rest => c :: (rest.reverse.dropWhile isWs).reverse

/-- Embedding of `Mymap::insert(char* line, int i)` from `src/src/Map.cpp`
lines 27-60: a null line or an index outside [0, size) is rejected with
-1; otherwise one trailing newline is removed, leading and trailing spaces
and tabs are trimmed, the document is stored and 1 is returned.  The
result is the pair (return code, stored document text). -/
def Mymap.insert (line : Option (List Char)) (i : Int) (size : Int) :
    Int × Option (List Char) :=
  match line with
  | none => (-1, none)
  | some l =>
    if i < 0 ∨ size ≤ i then (-1, none)
    else (1, some (trimTrailingLoop (trimLeading (dropNewline l))))

/-- The cleaned text in the words of the spec: the input with a single
trailing newline removed and all leading and trailing spaces and tabs
trimmed. -/
def specCleanedText (l : List Char) : List Char :=
  (((dropNewline l).dropWhile isWs).reverse.dropWhile isWs).reverse

theorem dropWhile_head_false :
    ∀ (m : List Char) (c : Char) (rest : List Char),
      m.dropWhile isWs = c :: rest → isWs c = false := by
  intro m
  induction m with
  | nil => intro c rest h; simp [List.dropWhile] at h
  | cons a t ih =>
    intro c rest h
    rw [List.dropWhile_cons] at h
    by_cases ha : isWs a = true
    · rw [if_pos ha] at h
      exact ih c rest h
    · rw [if_neg ha] at h
      injection h with h1 _
      rw [← h1]
      exact Bool.eq_false_iff.mpr ha

theorem dropWhile_append_one (c : Char) (h : isWs c = false) :
    ∀ A : List Char, (A ++ [c]).dropWhile isWs = A.dropWhile isWs ++ [c] := by
  intro A
  induction A with
  | nil => simp [List.dropWhile_cons, h]
  | cons a A ih =>
    by_cases ha : isWs a = true
    · simp [List.cons_append, List.dropWhile_cons, ha, ih]
    · simp [List.dropWhile_cons, ha]

theorem rstrip_cons (c : Char) (rest : List Char) (h : isWs c = false) :
    ((c :: rest).reverse.dropWhile isWs).reverse =
      c :: (rest.reverse.dropWhile isWs).reverse := by
  rw [List.reverse_cons, dropWhile_append_one c h, List.reverse_append]
  simp

theorem trimTrailingLoop_eq (m : List Char) :
    trimTrailingLoop (m.dropWhile isWs) =
      ((m.dropWhile isWs).reverse.dropWhile isWs).reverse := by
  cases hd : m.dropWhile isWs with
  | nil => simp [trimTrailingLoop]
  | cons c rest =>
    have hc : isWs c = false := dropWhile_head_false m c rest hd
    rw [trimTrailingLoop, rstrip_cons c rest hc]

/-- C7: for every accepted line (valid index, non-null line),
`Mymap::insert` returns success and the stored document text is exactly
the input with a single trailing newline removed and all leading and
trailing spaces and tabs trimmed. -/
theorem c7_map_insert_trims (l : List Char) (i size : Int)
    (h0 : 0 ≤ i) (h1 : i < size) :
    Mymap.insert (some l) i size = (1, some (specCleanedText l)) := by
  simp only [Mymap.insert]
  rw [if_neg (by omega)]
  rw [trimLeading, specCleanedText]
  rw [trimTrailingLoop_eq (dropNewline l)]

/-- Witness for C7 on the concrete line "  cat \n" stored at index 0 of a
three-document corpus. -/
theorem c7_map_insert_trims_witness :
    Mymap.insert (some [' ', ' ', 'c', 'a', 't', ' ', '\n']) 0 3 =
      (1, some (specCleanedText [' ', ' ', 'c', 'a', 't', ' ', '\n'])) :=
  c7_map_insert_trims [' ', ' ', 'c', 'a', 't', ' ', '\n'] 0 3
    (by norm_num) (by norm_num)

example : specCleanedText [' ', ' ', 'c', 'a', 't', ' ', '\n'] =
    ['c', 'a', 't'] := by decide

example : Mymap.insert (some ['a', '\n', ' ']) 0 1 =
    (1, some ['a', '\n']) := by decide

/-- Splits a character stream the way the repeated `getline` calls of
`read_sizes` do: each chunk keeps the newline that terminated it, and a
final unterminated chunk is returned as is. -/
def getlines : List Char → List (List Char)
  | [] => []
  | c :: cs =>
    match getlines cs with
    | [] => [[c]]
    | l :: ls => if c = '\n' then ['\n'] :: l :: ls else (c :: l) :: ls

/-- One iteration of the `getline` loop of `read_sizes`: the length
excludes the terminating newline; `maxlength` (second component) takes
the maximum and `linecounter` (first component) is incremented. -/
def readLine (acc : Int × Int) (line : List Char) : Int × Int :=
  let cl : Int :=
    if line.getLast? = some '\n' then (line.length : Int) - 1
    else line.length
  (acc.1 + 1, if acc.2 < cl then cl else acc.2)

/-- Embedding of `read_sizes` from `src/src/Document_store.cpp`: `none`
models a file that cannot be opened (-1), an empty stream is the
empty-file check via `fgetc` returning `EOF` (-1), and otherwise the
`getline` loop consumes every line, counting lines and the maximal line
length; the result is (status, linecounter, maxlength). -/
def read_sizes (file : Option (List Char)) (linecounter maxlength : Int) :
    Int × Int × Int :=
  match file with
  | none => (-1, linecounter, maxlength)
  | some [] => (-1, linecounter, maxlength)
  | some (c :: cs) =>
    ((1 : Int), (getlines (c :: cs)).foldl readLine (linecounter, maxlength))

example : read_sizes (some ['a', 'b', '\n', 'c', 'd', 'e']) 0 0 =
    (1, 2, 3) := by decide

/-- The construction-time error kinds of §7 of the spec. -/
inductive BuildError where
  | EmptyCorpus
  | InvalidK
deriving DecidableEq

/-- Modelled from the spec: the build orchestration calling `read_sizes`
is not among the sources; per §7, a corpus of zero documents
(`EmptyCorpus`) aborts the index build and the error is surfaced to the
caller before any queries are accepted. -/
def buildIndex (content : List Char) : Except BuildError Int :=
  if (read_sizes (some content) 0 0).1 = -1 then
    Except.error BuildError.EmptyCorpus
  else
    Except.ok (read_sizes (some content) 0 0).2.1

/-- C6: an empty input makes `read_sizes` return -1 leaving the counters
untouched (and an unopenable file likewise), and the modelled build
operation aborts, surfacing `EmptyCorpus` to the caller as a failure
result. -/
theorem c6_empty_corpus_aborts (lc ml : Int) :
    read_sizes (some []) lc ml = (-1, lc, ml) ∧
      read_sizes none lc ml = (-1, lc, ml) ∧
      buildIndex [] = Except.error BuildError.EmptyCorpus :=
  ⟨rfl, rfl, rfl⟩
